import Mathlib

/-!
Verification of the `sortbuf` crate: an in-memory bucketed sorting buffer.

Shallow embedding conventions:
* A Rust `Vec<T>` is modelled as `RVec`: the stored items (a `List`) together
  with the allocated capacity.  Capacity influences control flow in
  `Inserter::insert_items`, so it is tracked explicitly.  `try_reserve` is
  modelled as granting exactly the requested capacity.
* Allocation failures (`try_reserve` errors) are nondeterministic environment
  behaviour; they are resolved by an explicit oracle: a schedule of booleans,
  one consumed per fallible allocation, `true` meaning the allocation fails.
  The empty schedule means every allocation succeeds.
* Item types are linear orders.  `Vec::sort_unstable` is modelled by insertion
  sort; over a linear order every comparison sort produces the same list
  (sorted permutations are unique), so this is extensionally faithful.
* `BinaryHeap<SortedBucket<T>>` is modelled as a list of buckets; `peek_mut`
  selects a maximal bucket w.r.t. the `SortedBucket` ordering (comparison of
  `last()` elements, `None` least).  Rust leaves the choice among equal-key
  buckets unspecified; `extractMax` picks the first maximal one.  Since equal
  keys are equal items in a linear order, the drained value sequence does not
  depend on this choice.
* `std::cmp::Reverse<T>` is modelled by the order dual `Tᵒᵈ`.
* Lean types have no `size_of`; the per-item byte size is an explicit `Nat`
  parameter wherever the source divides or multiplies by it.
-/

namespace Sortbuf

/-- Model of Rust `Vec<T>`: stored items plus allocated capacity. -/
structure RVec (α : Type*) where
  data : List α
  cap : Nat
  deriving DecidableEq

namespace RVec

variable {α : Type*}

/-- `Vec::len`. -/
def len (v : RVec α) : Nat := v.data.length

/-- `Vec::new` (also the value left behind by `std::mem::take`). -/
def empty : RVec α := ⟨[], 0⟩

/-- `Vec::shrink_to(n)`: capacity drops to `max len (min cap n)`. -/
def shrink_to (v : RVec α) (n : Nat) : RVec α :=
  ⟨v.data, max v.data.length (min v.cap n)⟩

/-- `Vec::shrink_to_fit`: capacity drops to the current length. -/
def shrink_to_fit (v : RVec α) : RVec α := ⟨v.data, v.data.length⟩

/-- `Vec::extend`: append items, growing capacity when needed. -/
def extend (v : RVec α) (xs : List α) : RVec α :=
  ⟨v.data ++ xs, max v.cap (v.data.length + xs.length)⟩

/-- `Vec::pop`: remove and return the last item. -/
def pop (v : RVec α) : Option α × RVec α :=
  (v.data.getLast?, ⟨v.data.dropLast, v.cap⟩)

/-- Overcapacity of a `SortedBucket` (src/bucket.rs): `capacity - len`. -/
def overcapacity (v : RVec α) : Nat := v.cap - v.data.length

end RVec

variable {α : Type*} [LinearOrder α]

/-- Ascending comparison sort, the model of `Vec::sort_unstable`. -/
def sortAsc (l : List α) : List α := l.insertionSort (· ≤ ·)

/-- `Bucket::new` (src/bucket.rs lines 39-43): `shrink_to_fit` then sort
ascending. -/
def Bucket.new (v : RVec α) : RVec α :=
  let s := v.shrink_to_fit
  ⟨sortAsc s.data, s.cap⟩

/-- `Bucket::into_inner` (src/bucket.rs lines 46-48): recover the inner `Vec`. -/
def Bucket.into_inner (v : RVec α) : RVec α := v

/-- `Bucket::len` (src/bucket.rs lines 51-53). -/
def Bucket.len (v : RVec α) : Nat := v.data.length

/-- The heap key of a `SortedBucket`: `self.0.last()`, with `None` (⊥) for an
empty bucket (src/bucket.rs lines 123-144 compare these keys). -/
def bucketKey (v : RVec α) : WithBot α :=
  match v.data.getLast? with
  | none => ⊥
  | some x => (x : WithBot α)

/-- Rust `Ord::cmp` on a linearly ordered type. -/
def ordCmp {β : Type*} [LinearOrder β] (x y : β) : Ordering :=
  if x < y then .lt else if x = y then .eq else .gt

/-- `Ord for SortedBucket`: compare the `last()` elements as `Option`s
(`None` least), src/bucket.rs lines 123-128. -/
def sbCmp (a b : RVec α) : Ordering := ordCmp (bucketKey a) (bucketKey b)

/-- `PartialEq for SortedBucket`: equality of the `last()` elements,
src/bucket.rs lines 139-144. -/
def sbEq (a b : RVec α) : Prop := bucketKey a = bucketKey b

/-- `Iterator::next for SortedBucket` (src/bucket.rs lines 108-121):
`self.0.pop()`. -/
def SortedBucket.next (v : RVec α) : Option α × RVec α := v.pop

/-- `Iterator::size_hint for SortedBucket`: the exact remaining length. -/
def SortedBucket.size_hint (v : RVec α) : Nat × Option Nat :=
  (v.len, some v.len)

/-- Model of `BinaryHeap::peek_mut` selection: split a maximal bucket
(w.r.t. `sbCmp`) off the heap, returning it and the remaining buckets. -/
def extractMax : List (RVec α) → Option (RVec α × List (RVec α))
  | [] => none
  | b :: bs =>
    match extractMax bs with
    | none => some (b, [])
    | some (m, rest) =>
      if bucketKey m ≤ bucketKey b then some (b, bs) else some (m, b :: rest)

/-- Default shrink threshold of `Iter`, in bytes (src/iter.rs line 11). -/
def DEFAULT_SHRINK_THRESHOLD_BYTES : Nat := 1024*1024

/-- One call to `Iter::next` (src/iter.rs lines 84-97): pop the tail of a
maximal bucket, shrinking its storage once overcapacity reaches the threshold;
an empty top bucket is evicted and the loop retries.  The fuel bounds the
number of evictions; `heap.length` always suffices. -/
def iterNextFuel (thr : Nat) : Nat → List (RVec α) → Option α × List (RVec α)
  | 0, heap => (none, heap)
  | fuel+1, heap =>
    match extractMax heap with
    | none => (none, heap)
    | some (b, rest) =>
      match SortedBucket.next b with
      | (some x, b1) =>
        let b2 := if thr ≤ b1.overcapacity then b1.shrink_to_fit else b1
        (some x, b2 :: rest)
      | (none, _) => iterNextFuel thr fuel rest

/-- `Iter::next` with sufficient fuel. -/
def iterNext (thr : Nat) (heap : List (RVec α)) : Option α × List (RVec α) :=
  iterNextFuel thr heap.length heap

/-- Total number of items remaining in a heap of buckets
(`Iterator::size_hint for Iter`, src/iter.rs lines 99-102). -/
def totalLen (heap : List (RVec α)) : Nat :=
  (heap.map (fun v => v.data.length)).sum

/-- Concatenated contents of a heap of buckets. -/
def joinData (heap : List (RVec α)) : List α := (heap.map RVec.data).flatten

/-- Repeated `Iter::next` until `None`: the full drained item sequence.  Each
successful pull removes one item, so `totalLen heap` fuel always suffices. -/
def drainFuel (thr : Nat) : Nat → List (RVec α) → List α
  | 0, _ => []
  | fuel+1, heap =>
    match iterNext thr heap with
    | (none, _) => []
    | (some x, heap1) => x :: drainFuel thr fuel heap1

/-- Drain a `SortBuf`s buckets through `Iter` (src/lib.rs `into_iter` plus
src/iter.rs) into the yielded item sequence. -/
def drain (thr : Nat) (heap : List (RVec α)) : List α :=
  drainFuel thr (totalLen heap) heap

/-- Allocation oracle: each fallible allocation consumes the head of the
schedule, `true` meaning failure; the empty schedule always succeeds. -/
def alloc : List Bool → Bool × List Bool
  | [] => (false, [])
  | b :: rest => (b, rest)

/-- `BucketAccumulator::add_bucket for SortBuf` (src/inserter.rs lines 49-58):
`try_reserve(1)` on the bucket list, then push; on failure the bucket list is
unchanged and the bucket stays with the caller.  The first component is the
success flag. -/
def add_bucket (buf : List (RVec α)) (b : RVec α) (sched : List Bool) :
    Bool × List (RVec α) × List Bool :=
  match alloc sched with
  | (true, s) => (false, buf, s)
  | (false, s) => (true, buf ++ [b], s)

/-- Result of one `Inserter::insert_items` call: success flag, the target
buffer, the pending item accumulator, the items not consumed from the input
iterator, and the rest of the allocation schedule. -/
structure InsertOut (α : Type*) where
  ok : Bool
  buf : List (RVec α)
  pending : RVec α
  remaining : List α
  sched : List Bool
  deriving DecidableEq

/-- The seal-and-commit step inside the insertion loop (src/inserter.rs lines
168-174): the freshly sealed bucket is committed when non-empty; on commit
failure its items are recovered into the item accumulator.  Returns success
flag, buffer, new item accumulator (the empty vec left by `mem::take`, or the
recovered bucket) and schedule. -/
def commitStep (buf : List (RVec α)) (b : RVec α) (sched : List Bool) :
    Bool × List (RVec α) × RVec α × List Bool :=
  if 0 < Bucket.len b then
    match add_bucket buf b sched with
    | (true, buf1, s) => (true, buf1, RVec.empty, s)
    | (false, buf1, s) => (false, buf1, Bucket.into_inner b, s)
  else (true, buf, RVec.empty, sched)

/-- The while-loop of `Inserter::insert_items` (src/inserter.rs lines 167-178).
The loop runs while `len ≥ capacity`: it seals the accumulator into a bucket
(`Bucket::new(mem::take(..))`), commits it, `try_reserve`s `bucket_size` slots
and refills from the iterator.  Fuel bounds the iteration count;
`remaining.length + 2` always suffices since every continuing iteration
consumes `bucket_size ≥ 1` source items. -/
def insertLoop (bsize : Nat) :
    Nat → List (RVec α) → RVec α → List α → List Bool → InsertOut α
  | 0, buf, pending, remaining, sched => ⟨false, buf, pending, remaining, sched⟩
  | fuel+1, buf, pending, remaining, sched =>
    if pending.data.length < pending.cap then
      ⟨true, buf, pending, remaining, sched⟩
    else
      match commitStep buf (Bucket.new pending) sched with
      | (false, buf1, pend1, s) => ⟨false, buf1, pend1, remaining, s⟩
      | (true, buf1, _, s) =>
        match alloc s with
        | (true, s2) => ⟨false, buf1, RVec.empty, remaining, s2⟩
        | (false, s2) =>
          insertLoop bsize fuel buf1 ⟨remaining.take bsize, bsize⟩
            (remaining.drop bsize) s2

/-- `Inserter::insert_items` (src/inserter.rs lines 151-181): shrink the
accumulator toward the target size, fill it to capacity, then run the
seal-and-commit loop. -/
def insertItems (bsize : Nat) (buf : List (RVec α)) (pending : RVec α)
    (items : List α) (sched : List Bool) : InsertOut α :=
  let p1 := pending.shrink_to bsize
  let head_room := p1.cap - p1.data.length
  let p2 := p1.extend (items.take head_room)
  insertLoop bsize ((items.drop head_room).length + 2) buf p2
    (items.drop head_room) sched

/-- `Drop for Inserter` (src/inserter.rs lines 240-249): seal and commit the
final, possibly undersized, bucket when the accumulator is non-empty. -/
def flush (buf : List (RVec α)) (pending : RVec α) (sched : List Bool) :
    Bool × List (RVec α) × List Bool :=
  if pending.data.isEmpty then (true, buf, sched)
  else add_bucket buf (Bucket.new pending) sched

/-- Default bucket byte budget (src/bucket.rs line 19). -/
def DEFAULT_BUCKET_BYTESIZE : Nat := 16*1024*1024

/-- `Inserter::size_from_bytesize` (src/inserter.rs lines 212-216): the byte
budget divided by the per-item size, floored at one item. -/
def size_from_bytesize (itemSize bytesize : Nat) : Nat :=
  match bytesize / itemSize with
  | 0 => 1
  | n+1 => n+1

/-- The `Inserter` fields that persist across calls (the accumulator target is
threaded separately through `insertItems`). -/
structure Inserter (α : Type*) where
  item_accumulator : RVec α
  bucket_size : Nat

/-- `Inserter::new` (src/inserter.rs lines 135-138): empty accumulator,
default bucket size derived from the default byte budget. -/
def Inserter.new {α : Type*} (itemSize : Nat) : Inserter α :=
  ⟨RVec.empty, size_from_bytesize itemSize DEFAULT_BUCKET_BYTESIZE⟩

/-- `Inserter::set_bucket_bytesize` (src/inserter.rs lines 196-199). -/
def Inserter.set_bucket_bytesize {α : Type*} (ins : Inserter α)
    (itemSize bytesize : Nat) : Inserter α :=
  { ins with bucket_size := size_from_bytesize itemSize bytesize }

/-- `Inserter::bucket_bytesize` (src/inserter.rs lines 207-209): the item
count target times the per-item size. -/
def Inserter.bucket_bytesize {α : Type*} (ins : Inserter α) (itemSize : Nat) :
    Nat :=
  ins.bucket_size * itemSize

/-- Feed a sequence of chunks through one `Inserter` starting from the given
buffer and pending accumulator, all allocations succeeding. -/
def insertChunksFrom (bsize : Nat) (st : List (RVec α) × RVec α)
    (chunks : List (List α)) : List (RVec α) × RVec α :=
  chunks.foldl
    (fun st chunk =>
      let out := insertItems bsize st.1 st.2 chunk []
      (out.buf, out.pending))
    st

/-- Feed a sequence of chunks through one fresh `Inserter` (all allocations
succeeding), returning the committed buckets and the pending accumulator. -/
def runInsertChunks (bsize : Nat) (chunks : List (List α)) :
    List (RVec α) × RVec α :=
  insertChunksFrom bsize ([], RVec.empty) chunks

/-- End-to-end pipeline: insert all chunks, drop the `Inserter` (final flush),
convert the `SortBuf` into `Iter` and drain it. -/
def insertAndDrain (bsize thr : Nat) (chunks : List (List α)) : List α :=
  let st := runInsertChunks bsize chunks
  let fl := flush st.1 st.2 []
  drain thr fl.2.1

/-- `std::cmp::Reverse<T>`, modelled as the order dual. -/
abbrev Reverse (α : Type*) := αᵒᵈ

/-- `SortBuf::unreversed` (src/lib.rs lines 169-178): drain and unwrap each
item from its reversal wrapper. -/
def unreversed (thr : Nat) (heap : List (RVec (Reverse α))) : List α :=
  (drain thr heap).map OrderDual.ofDual

/-- End-to-end pipeline through the reversal adapter: wrap every item, insert,
flush, and drain through `unreversed`. -/
def insertReversedAndDrain (bsize thr : Nat) (chunks : List (List α)) :
    List α :=
  let st := runInsertChunks bsize (chunks.map (fun c => c.map OrderDual.toDual))
  let fl := flush st.1 st.2 []
  unreversed thr fl.2.1

/-! ### Basic lemmas -/

theorem sortAsc_sorted (l : List α) : (sortAsc l).Sorted (· ≤ ·) :=
  List.sorted_insertionSort _ l

theorem sortAsc_perm (l : List α) : List.Perm (sortAsc l) l :=
  List.perm_insertionSort _ l

theorem sortAsc_length (l : List α) : (sortAsc l).length = l.length :=
  (sortAsc_perm l).length_eq

theorem getLast?_mem {β : Type*} {l : List β} {m : β} (h : l.getLast? = some m) :
    m ∈ l := by
  obtain ⟨ys, rfl⟩ := List.getLast?_eq_some_iff.mp h
  simp

theorem le_getLast?_of_sorted {l : List α} (hs : l.Sorted (· ≤ ·)) {x m : α}
    (hx : x ∈ l) (hm : l.getLast? = some m) : x ≤ m := by
  induction l with
  | nil => cases hx
  | cons a t ih =>
    rcases List.sorted_cons.mp hs with ⟨ha, ht⟩
    cases t with
    | nil =>
      simp at hm hx
      simp [hx, hm]
    | cons b t2 =>
      rw [List.getLast?_cons_cons] at hm
      rcases List.mem_cons.mp hx with rfl | hx2
      · exact le_trans (le_refl x) (ha m (getLast?_mem hm))
      · exact ih ht hx2 hm

theorem joinData_nil : joinData ([] : List (RVec α)) = [] := rfl

theorem joinData_cons (b : RVec α) (bs : List (RVec α)) :
    joinData (b :: bs) = b.data ++ joinData bs := by
  simp [joinData]

theorem joinData_append (h1 h2 : List (RVec α)) :
    joinData (h1 ++ h2) = joinData h1 ++ joinData h2 := by
  simp [joinData]

theorem joinData_length (heap : List (RVec α)) :
    (joinData heap).length = totalLen heap := by
  simp [joinData, totalLen, Function.comp_def]

theorem joinData_perm {h1 h2 : List (RVec α)} (h : List.Perm h1 h2) :
    List.Perm (joinData h1) (joinData h2) :=
  (h.map RVec.data).flatten

theorem mem_joinData {y : α} {heap : List (RVec α)} :
    y ∈ joinData heap ↔ ∃ b ∈ heap, y ∈ b.data := by
  simp [joinData]

theorem bucketKey_of_getLast? {b : RVec α} {x : α} (h : b.data.getLast? = some x) :
    bucketKey b = (x : WithBot α) := by
  simp [bucketKey, h]

theorem bucketKey_of_nil {b : RVec α} (h : b.data = []) : bucketKey b = ⊥ := by
  simp [bucketKey, h]

theorem bucketKey_le_of_mem {b : RVec α} (hs : b.data.Sorted (· ≤ ·)) {x : α}
    (hx : x ∈ b.data) : (x : WithBot α) ≤ bucketKey b := by
  cases hm : b.data.getLast? with
  | none =>
    rw [List.getLast?_eq_none_iff] at hm
    rw [hm] at hx
    cases hx
  | some m =>
    rw [bucketKey_of_getLast? hm]
    exact WithBot.coe_le_coe.mpr (le_getLast?_of_sorted hs hx hm)

/-! ### `extractMax` lemmas -/

theorem extractMax_eq_none {heap : List (RVec α)} :
    extractMax heap = none ↔ heap = [] := by
  cases heap with
  | nil => simp [extractMax]
  | cons b bs =>
    simp only [extractMax]
    cases h : extractMax bs with
    | none => simp
    | some p =>
      obtain ⟨m, rest⟩ := p
      by_cases hk : bucketKey m ≤ bucketKey b <;> simp [hk]

theorem extractMax_perm {heap : List (RVec α)} {b : RVec α} {rest : List (RVec α)}
    (h : extractMax heap = some (b, rest)) : List.Perm heap (b :: rest) := by
  induction heap generalizing b rest with
  | nil => simp [extractMax] at h
  | cons a bs ih =>
    simp only [extractMax] at h
    cases hE : extractMax bs with
    | none =>
      rw [hE] at h
      have hbs := extractMax_eq_none.mp hE
      subst hbs
      simp only [Option.some.injEq, Prod.mk.injEq] at h
      obtain ⟨rfl, rfl⟩ := h
      exact List.Perm.refl _
    | some p =>
      obtain ⟨m, r⟩ := p
      rw [hE] at h
      dsimp only at h
      by_cases hk : bucketKey m ≤ bucketKey a
      · rw [if_pos hk] at h
        simp only [Option.some.injEq, Prod.mk.injEq] at h
        obtain ⟨rfl, rfl⟩ := h
        exact List.Perm.refl _
      · rw [if_neg hk] at h
        simp only [Option.some.injEq, Prod.mk.injEq] at h
        obtain ⟨rfl, rfl⟩ := h
        exact ((ih hE).cons a).trans (List.Perm.swap m a r)

theorem extractMax_length {heap : List (RVec α)} {b : RVec α}
    {rest : List (RVec α)} (h : extractMax heap = some (b, rest)) :
    heap.length = rest.length + 1 := by
  simpa using (extractMax_perm h).length_eq

theorem extractMax_key {heap : List (RVec α)} {b : RVec α} {rest : List (RVec α)}
    (h : extractMax heap = some (b, rest)) :
    ∀ c ∈ rest, bucketKey c ≤ bucketKey b := by
  induction heap generalizing b rest with
  | nil => simp [extractMax] at h
  | cons a bs ih =>
    simp only [extractMax] at h
    cases hE : extractMax bs with
    | none =>
      rw [hE] at h
      simp only [Option.some.injEq, Prod.mk.injEq] at h
      obtain ⟨rfl, rfl⟩ := h
      intro c hc
      cases hc
    | some p =>
      obtain ⟨m, r⟩ := p
      rw [hE] at h
      dsimp only at h
      by_cases hk : bucketKey m ≤ bucketKey a
      · rw [if_pos hk] at h
        simp only [Option.some.injEq, Prod.mk.injEq] at h
        obtain ⟨rfl, rfl⟩ := h
        intro c hc
        have hcmr : c = m ∨ c ∈ r := by
          simpa using (extractMax_perm hE).mem_iff.mp hc
        rcases hcmr with rfl | hcr
        · exact hk
        · exact le_trans (ih hE c hcr) hk
      · rw [if_neg hk] at h
        simp only [Option.some.injEq, Prod.mk.injEq] at h
        obtain ⟨rfl, rfl⟩ := h
        intro c hc
        rcases List.mem_cons.mp hc with rfl | hcr
        · exact le_of_lt (lt_of_not_le hk)
        · exact ih hE c hcr

/-! ### `Iter::next` and drain lemmas -/

theorem iterNextFuel_nil (thr fuel : Nat) :
    iterNextFuel thr fuel ([] : List (RVec α)) = (none, []) := by
  cases fuel <;> simp [iterNextFuel, extractMax]

theorem iterNextFuel_step_some (thr f : Nat) {heap : List (RVec α)} {b : RVec α}
    {rest : List (RVec α)} {x : α}
    (hE : extractMax heap = some (b, rest)) (hL : b.data.getLast? = some x) :
    ∃ b2 : RVec α, iterNextFuel thr (f+1) heap = (some x, b2 :: rest) ∧
      b2.data = b.data.dropLast := by
  simp only [iterNextFuel, hE, SortedBucket.next, RVec.pop, hL]
  refine ⟨_, rfl, ?_⟩
  split <;> rfl

theorem iterNextFuel_step_none (thr f : Nat) {heap : List (RVec α)} {b : RVec α}
    {rest : List (RVec α)}
    (hE : extractMax heap = some (b, rest)) (hL : b.data.getLast? = none) :
    iterNextFuel thr (f+1) heap = iterNextFuel thr f rest := by
  simp only [iterNextFuel, hE, SortedBucket.next, RVec.pop, hL]

theorem iterNext_evict {thr : Nat} {heap rest : List (RVec α)} {b : RVec α}
    (hE : extractMax heap = some (b, rest)) (hb : b.data = []) :
    iterNext thr heap = iterNext thr rest := by
  have hL : b.data.getLast? = none := by rw [hb]; rfl
  have h1 : heap.length = rest.length + 1 := extractMax_length hE
  unfold iterNext
  rw [h1]
  exact iterNextFuel_step_none _ _ hE hL

theorem iterNextFuel_spec {thr : Nat} :
    ∀ (fuel : Nat) (heap : List (RVec α)), heap.length ≤ fuel →
      (∀ c ∈ heap, c.data.Sorted (· ≤ ·)) →
      ((iterNextFuel thr fuel heap).1 = none → joinData heap = []) ∧
      (∀ x, (iterNextFuel thr fuel heap).1 = some x →
        List.Perm (joinData heap) (x :: joinData (iterNextFuel thr fuel heap).2) ∧
        (∀ y ∈ joinData (iterNextFuel thr fuel heap).2, y ≤ x) ∧
        (∀ c ∈ (iterNextFuel thr fuel heap).2, c.data.Sorted (· ≤ ·))) := by
  intro fuel
  induction fuel with
  | zero =>
    intro heap hle hs
    have hnil : heap = [] := List.length_eq_zero.mp (Nat.le_zero.mp hle)
    subst hnil
    refine ⟨fun _ => rfl, fun x hx => ?_⟩
    simp [iterNextFuel] at hx
  | succ f ih =>
    intro heap hle hs
    cases hE : extractMax heap with
    | none =>
      have hnil := extractMax_eq_none.mp hE
      subst hnil
      refine ⟨fun _ => rfl, fun x hx => ?_⟩
      simp [iterNextFuel, extractMax] at hx
    | some p =>
      obtain ⟨b, rest⟩ := p
      have hperm := extractMax_perm hE
      have hkey := extractMax_key hE
      have hrl : heap.length = rest.length + 1 := extractMax_length hE
      have hrest_sorted : ∀ c ∈ rest, c.data.Sorted (· ≤ ·) := fun c hc =>
        hs c (hperm.symm.subset (List.mem_cons_of_mem b hc))
      have hb_sorted : b.data.Sorted (· ≤ ·) :=
        hs b (hperm.symm.subset (List.mem_cons_self b rest))
      cases hL : b.data.getLast? with
      | some x =>
        obtain ⟨b2, hres, hdata⟩ :=
          iterNextFuel_step_some thr f hE hL
        rw [hres]
        have hbsplit : b.data.dropLast ++ [x] = b.data :=
          List.dropLast_append_getLast? x (Option.mem_def.mpr hL)
        refine ⟨fun hc => by simp at hc, fun x2 hx2 => ?_⟩
        have hxx : x2 = x := by
          simp at hx2
          exact hx2.symm
        subst hxx
        refine ⟨?_, ?_, ?_⟩
        · have h1 := joinData_perm hperm
          rw [joinData_cons, ← hbsplit, List.append_assoc] at h1
          rw [joinData_cons, hdata]
          exact h1.trans List.perm_middle
        · intro y hy
          rw [joinData_cons, hdata, List.mem_append] at hy
          rcases hy with hy | hy
          · exact le_getLast?_of_sorted hb_sorted
              ((List.dropLast_sublist b.data).subset hy) hL
          · obtain ⟨c, hc, hyc⟩ := mem_joinData.mp hy
            have h1 : (y : WithBot α) ≤ bucketKey c :=
              bucketKey_le_of_mem (hrest_sorted c hc) hyc
            have h2 : bucketKey c ≤ bucketKey b := hkey c hc
            have h3 : bucketKey b = (x2 : WithBot α) := bucketKey_of_getLast? hL
            exact WithBot.coe_le_coe.mp (h3 ▸ le_trans h1 h2)
        · intro c hc
          rcases List.mem_cons.mp hc with rfl | hc2
          · rw [hdata]
            exact List.Pairwise.sublist (List.dropLast_sublist b.data) hb_sorted
          · exact hrest_sorted c hc2
      | none =>
        have hbnil : b.data = [] := by
          rwa [List.getLast?_eq_none_iff] at hL
        have hres := iterNextFuel_step_none thr f hE hL
        rw [hres]
        have hperm2 : List.Perm (joinData heap) (joinData rest) := by
          have := joinData_perm hperm
          rwa [joinData_cons, hbnil, List.nil_append] at this
        have hlen : rest.length ≤ f := by omega
        have hih := ih rest hlen hrest_sorted
        refine ⟨fun hn => ?_, fun x hx => ?_⟩
        · have : joinData rest = [] := hih.1 hn
          exact (this ▸ hperm2).eq_nil
        · obtain ⟨hp, hb2, hsort2⟩ := hih.2 x hx
          exact ⟨hperm2.trans hp, hb2, hsort2⟩

theorem iterNext_spec (thr : Nat) {heap : List (RVec α)}
    (hs : ∀ c ∈ heap, c.data.Sorted (· ≤ ·)) :
    ((iterNext thr heap).1 = none → joinData heap = []) ∧
    (∀ x, (iterNext thr heap).1 = some x →
      List.Perm (joinData heap) (x :: joinData (iterNext thr heap).2) ∧
      (∀ y ∈ joinData (iterNext thr heap).2, y ≤ x) ∧
      (∀ c ∈ (iterNext thr heap).2, c.data.Sorted (· ≤ ·))) :=
  iterNextFuel_spec heap.length heap le_rfl hs

theorem drainFuel_spec {thr : Nat} :
    ∀ (fuel : Nat) (heap : List (RVec α)), totalLen heap ≤ fuel →
      (∀ c ∈ heap, c.data.Sorted (· ≤ ·)) →
      (drainFuel thr fuel heap).Sorted (· ≥ ·) ∧
      List.Perm (drainFuel thr fuel heap) (joinData heap) := by
  intro fuel
  induction fuel with
  | zero =>
    intro heap hle hs
    have h0 : totalLen heap = 0 := Nat.le_zero.mp hle
    have hj : joinData heap = [] :=
      List.length_eq_zero.mp (by rw [joinData_length, h0])
    exact ⟨by simp [drainFuel], by simp [drainFuel, hj]⟩
  | succ f ih =>
    intro heap hle hs
    have hspec := iterNext_spec thr hs
    cases hI : iterNext thr heap with
    | mk o h2 =>
      rw [hI] at hspec
      cases o with
      | none =>
        have hj : joinData heap = [] := hspec.1 rfl
        refine ⟨?_, ?_⟩
        · simp [drainFuel, hI]
        · simp [drainFuel, hI, hj]
      | some x =>
        obtain ⟨hxperm, hbound, hsort2⟩ := hspec.2 x rfl
        have hlen2 : totalLen h2 ≤ f := by
          have h3 := hxperm.length_eq
          simp only [List.length_cons, joinData_length] at h3
          omega
        obtain ⟨hsorted2, hperm2⟩ := ih h2 hlen2 hsort2
        have hdf : drainFuel thr (f+1) heap = x :: drainFuel thr f h2 := by
          simp [drainFuel, hI]
        rw [hdf]
        refine ⟨?_, ?_⟩
        · rw [List.sorted_cons]
          exact ⟨fun y hy => hbound y (hperm2.subset hy), hsorted2⟩
        · exact (hperm2.cons x).trans hxperm.symm

theorem drain_spec (thr : Nat) {heap : List (RVec α)}
    (hs : ∀ c ∈ heap, c.data.Sorted (· ≤ ·)) :
    (drain thr heap).Sorted (· ≥ ·) ∧
    List.Perm (drain thr heap) (joinData heap) :=
  drainFuel_spec (totalLen heap) heap le_rfl hs

/-! ### Insertion lemmas -/

theorem commitStep_cases (buf : List (RVec α)) (b : RVec α) (sched : List Bool) :
    (commitStep buf b sched = (true, buf, RVec.empty, sched) ∧ b.data = []) ∨
    (∃ s, commitStep buf b sched = (true, buf ++ [b], RVec.empty, s)) ∨
    (∃ s, commitStep buf b sched = (false, buf, b, s)) := by
  unfold commitStep add_bucket Bucket.len Bucket.into_inner
  split
  · rename_i hpos
    cases hA : alloc sched with
    | mk fail s =>
      cases fail
      · right; left
        exact ⟨s, by simp [hA]⟩
      · right; right
        exact ⟨s, by simp [hA]⟩
  · rename_i hneg
    left
    exact ⟨rfl, List.length_eq_zero.mp (by omega)⟩

theorem commitStep_nil_sched (buf : List (RVec α)) (b : RVec α) :
    commitStep buf b [] = (true, buf ++ [b], RVec.empty, []) ∨
    commitStep buf b [] = (true, buf, RVec.empty, []) := by
  unfold commitStep add_bucket alloc
  split <;> simp

theorem sortAsc_eq_nil {l : List α} (h : sortAsc l = []) : l = [] := by
  have := sortAsc_length l
  rw [h] at this
  exact List.length_eq_zero.mp this.symm

theorem insertLoop_preserves (bsize : Nat) :
    ∀ (fuel : Nat) (buf : List (RVec α)) (pending : RVec α) (remaining : List α)
      (sched : List Bool) (out : InsertOut α),
      insertLoop bsize fuel buf pending remaining sched = out →
      (remaining ≠ [] → pending.cap ≤ pending.data.length) →
      List.Perm (joinData out.buf ++ (out.pending.data ++ out.remaining))
        (joinData buf ++ (pending.data ++ remaining)) ∧
      out.remaining.IsSuffix remaining ∧
      (∃ extra, out.buf = buf ++ extra ∧ ∀ c ∈ extra, c.data.Sorted (· ≤ ·)) ∧
      (out.ok = true → out.remaining = []) := by
  intro fuel
  induction fuel with
  | zero =>
    intro buf pending remaining sched out hout hinv
    rw [insertLoop] at hout
    subst hout
    exact ⟨List.Perm.refl _, List.suffix_refl _,
      ⟨[], (List.append_nil buf).symm, by simp⟩, by simp⟩
  | succ f ih =>
    intro buf pending remaining sched out hout hinv
    rw [insertLoop] at hout
    by_cases hcond : pending.data.length < pending.cap
    · rw [if_pos hcond] at hout
      subst hout
      refine ⟨List.Perm.refl _, List.suffix_refl _,
        ⟨[], (List.append_nil buf).symm, by simp⟩, fun _ => ?_⟩
      by_contra hne
      exact absurd (hinv hne) (by omega)
    · rw [if_neg hcond] at hout
      rcases commitStep_cases buf (Bucket.new pending) sched with
        ⟨hC, hnil⟩ | ⟨s, hC⟩ | ⟨s, hC⟩
      · -- empty bucket: no commit
        rw [hC] at hout
        dsimp only at hout
        have hpnil : pending.data = [] := sortAsc_eq_nil hnil
        cases hA : alloc sched with
        | mk fail s2 =>
          rw [hA] at hout
          cases fail
          · -- try_reserve succeeded: refill and loop
            dsimp only at hout
            have hinv2 : remaining.drop bsize ≠ [] →
                (⟨remaining.take bsize, bsize⟩ : RVec α).cap ≤
                  (⟨remaining.take bsize, bsize⟩ : RVec α).data.length := by
              intro hne
              have h1 : (remaining.drop bsize).length ≠ 0 :=
                fun h0 => hne (List.length_eq_zero.mp h0)
              rw [List.length_drop] at h1
              simp only [List.length_take]
              omega
            obtain ⟨hperm, hsuf, hextra, hok⟩ := ih buf _ _ s2 out hout hinv2
            refine ⟨?_, hsuf.trans (List.drop_suffix bsize remaining), hextra, hok⟩
            refine hperm.trans ?_
            rw [hpnil]
            simp [List.take_append_drop]
          · -- try_reserve failed
            dsimp only at hout
            subst hout
            refine ⟨?_, List.suffix_refl _,
              ⟨[], (List.append_nil buf).symm, by simp⟩, by simp⟩
            simp [RVec.empty, hpnil]
      · -- non-empty bucket, commit succeeded
        rw [hC] at hout
        dsimp only at hout
        cases hA : alloc s with
        | mk fail s2 =>
          rw [hA] at hout
          cases fail
          · -- try_reserve succeeded: refill and loop
            dsimp only at hout
            have hinv2 : remaining.drop bsize ≠ [] →
                (⟨remaining.take bsize, bsize⟩ : RVec α).cap ≤
                  (⟨remaining.take bsize, bsize⟩ : RVec α).data.length := by
              intro hne
              have h1 : (remaining.drop bsize).length ≠ 0 :=
                fun h0 => hne (List.length_eq_zero.mp h0)
              rw [List.length_drop] at h1
              simp only [List.length_take]
              omega
            obtain ⟨hperm, hsuf, hextra, hok⟩ :=
              ih (buf ++ [Bucket.new pending]) _ _ s2 out hout hinv2
            obtain ⟨extra, hbe, hse⟩ := hextra
            refine ⟨?_, hsuf.trans (List.drop_suffix bsize remaining),
              ⟨Bucket.new pending :: extra, by simpa using hbe, ?_⟩, hok⟩
            · refine hperm.trans ?_
              have h4 : joinData (buf ++ [Bucket.new pending]) ++
                  ((⟨remaining.take bsize, bsize⟩ : RVec α).data ++
                    remaining.drop bsize)
                  = joinData buf ++ (sortAsc pending.data ++ remaining) := by
                rw [joinData_append, joinData_cons, joinData_nil]
                simp [Bucket.new, RVec.shrink_to_fit, List.take_append_drop,
                  List.append_assoc]
              rw [h4]
              exact ((sortAsc_perm pending.data).append_right remaining).append_left
                (joinData buf)
            · intro c hc
              rcases List.mem_cons.mp hc with rfl | hc2
              · exact sortAsc_sorted pending.data
              · exact hse c hc2
          · -- try_reserve failed
            dsimp only at hout
            subst hout
            refine ⟨?_, List.suffix_refl _,
              ⟨[Bucket.new pending], rfl, by simpa using sortAsc_sorted pending.data⟩,
              by simp⟩
            have h4 : joinData (buf ++ [Bucket.new pending]) ++
                ((RVec.empty : RVec α).data ++ remaining)
                = joinData buf ++ (sortAsc pending.data ++ remaining) := by
              rw [joinData_append, joinData_cons, joinData_nil]
              simp [Bucket.new, RVec.shrink_to_fit, RVec.empty, List.append_assoc]
            show List.Perm (joinData (buf ++ [Bucket.new pending]) ++
              ((RVec.empty : RVec α).data ++ remaining)) _
            rw [h4]
            exact ((sortAsc_perm pending.data).append_right remaining).append_left
              (joinData buf)
      · -- commit failed: items recovered into the accumulator
        rw [hC] at hout
        dsimp only at hout
        subst hout
        refine ⟨?_, List.suffix_refl _,
          ⟨[], (List.append_nil buf).symm, by simp⟩, by simp⟩
        show List.Perm (joinData buf ++ ((Bucket.new pending).data ++ remaining)) _
        have h3 : (Bucket.new pending).data = sortAsc pending.data := rfl
        rw [h3]
        exact ((sortAsc_perm pending.data).append_right remaining).append_left
          (joinData buf)

theorem insertLoop_ok (bsize : Nat) (hb : 0 < bsize) :
    ∀ (fuel : Nat) (buf : List (RVec α)) (pending : RVec α) (remaining : List α),
      remaining.length + 2 ≤ fuel →
      (insertLoop bsize fuel buf pending remaining []).ok = true := by
  intro fuel
  induction fuel with
  | zero =>
    intro buf pending remaining hle
    exact absurd hle (by omega)
  | succ f ih =>
    intro buf pending remaining hle
    rw [insertLoop]
    by_cases hcond : pending.data.length < pending.cap
    · rw [if_pos hcond]
    · rw [if_neg hcond]
      have main : ∀ buf2 : List (RVec α),
          (insertLoop bsize f buf2 ⟨remaining.take bsize, bsize⟩
            (remaining.drop bsize) []).ok = true := by
        intro buf2
        by_cases hlen : bsize ≤ remaining.length
        · exact ih buf2 _ _ (by rw [List.length_drop]; omega)
        · have hdrop : remaining.drop bsize = [] :=
            List.drop_eq_nil_of_le (by omega)
          rw [hdrop]
          cases f with
          | zero => omega
          | succ f2 =>
            rw [insertLoop]
            rw [if_pos (by simp only [List.length_take]; omega)]
      rcases commitStep_nil_sched buf (Bucket.new pending) with hC | hC <;>
        rw [hC] <;> dsimp only [alloc] <;> exact main _

theorem insertItems_preserves (bsize : Nat) (buf : List (RVec α))
    (pending : RVec α) (items : List α) (sched : List Bool) (out : InsertOut α)
    (hout : insertItems bsize buf pending items sched = out) :
    List.Perm (joinData out.buf ++ (out.pending.data ++ out.remaining))
      (joinData buf ++ (pending.data ++ items)) ∧
    out.remaining.IsSuffix items ∧
    (∃ extra, out.buf = buf ++ extra ∧ ∀ c ∈ extra, c.data.Sorted (· ≤ ·)) ∧
    (out.ok = true → out.remaining = []) := by
  unfold insertItems at hout
  dsimp only at hout
  obtain ⟨hperm, hsuf, hextra, hok⟩ :=
    insertLoop_preserves bsize _ buf _ _ sched out hout (by
      intro hne
      have h1 : ((items.drop ((pending.shrink_to bsize).cap -
          (pending.shrink_to bsize).data.length))).length ≠ 0 :=
        fun h0 => hne (List.length_eq_zero.mp h0)
      simp only [RVec.shrink_to, RVec.extend, List.length_take, List.length_drop,
        List.length_append] at h1 ⊢
      omega)
  have h2 : ((pending.shrink_to bsize).extend
        (items.take ((pending.shrink_to bsize).cap -
          (pending.shrink_to bsize).data.length))).data ++
      items.drop ((pending.shrink_to bsize).cap -
          (pending.shrink_to bsize).data.length)
      = pending.data ++ items := by
    simp only [RVec.extend, RVec.shrink_to]
    rw [List.append_assoc]
    congr 1
    exact List.take_append_drop _ items
  refine ⟨?_, hsuf.trans (List.drop_suffix _ items), hextra, hok⟩
  refine hperm.trans ?_
  rw [h2]

theorem insertItems_ok (bsize : Nat) (hb : 0 < bsize) (buf : List (RVec α))
    (pending : RVec α) (items : List α) :
    (insertItems bsize buf pending items []).ok = true :=
  insertLoop_ok bsize hb _ buf _ _ le_rfl

theorem insertChunksFrom_spec (bsize : Nat) (hb : 0 < bsize) :
    ∀ (chunks : List (List α)) (buf : List (RVec α)) (pending : RVec α),
      List.Perm
        (joinData (insertChunksFrom bsize (buf, pending) chunks).1 ++
          (insertChunksFrom bsize (buf, pending) chunks).2.data)
        (joinData buf ++ (pending.data ++ chunks.flatten)) ∧
      (∃ extra, (insertChunksFrom bsize (buf, pending) chunks).1 = buf ++ extra ∧
        ∀ c ∈ extra, c.data.Sorted (· ≤ ·)) := by
  intro chunks
  induction chunks with
  | nil =>
    intro buf pending
    constructor
    · simp [insertChunksFrom]
    · exact ⟨[], by simp [insertChunksFrom], by simp⟩
  | cons c cs ih =>
    intro buf pending
    have hstep : insertChunksFrom bsize (buf, pending) (c :: cs)
        = insertChunksFrom bsize
            ((insertItems bsize buf pending c []).buf,
             (insertItems bsize buf pending c []).pending) cs := rfl
    set out := insertItems bsize buf pending c [] with ho
    have hpres := insertItems_preserves bsize buf pending c [] out ho.symm
    have hok : out.ok = true := insertItems_ok bsize hb buf pending c
    obtain ⟨hperm, hsuf, ⟨e1, hbe1, hse1⟩, hok2⟩ := hpres
    have hrem : out.remaining = [] := hok2 hok
    rw [hrem] at hperm
    obtain ⟨ihperm, ⟨e2, hbe2, hse2⟩⟩ := ih out.buf out.pending
    rw [hstep]
    constructor
    · refine ihperm.trans ?_
      have h5 : joinData out.buf ++ (out.pending.data ++ cs.flatten)
          = (joinData out.buf ++ (out.pending.data ++ [])) ++ cs.flatten := by
        simp [List.append_assoc]
      rw [h5]
      refine (hperm.append_right cs.flatten).trans ?_
      have h7 : (joinData buf ++ (pending.data ++ c)) ++ cs.flatten
          = joinData buf ++ (pending.data ++ (c :: cs).flatten) := by
        simp [List.append_assoc]
      rw [h7]
    · refine ⟨e1 ++ e2, ?_, ?_⟩
      · rw [hbe2, hbe1, List.append_assoc]
      · intro c2 hc2
        rcases List.mem_append.mp hc2 with h | h
        · exact hse1 c2 h
        · exact hse2 c2 h

theorem flush_nil_sched (buf : List (RVec α)) (pending : RVec α) :
    (flush buf pending []).1 = true ∧
    List.Perm (joinData (flush buf pending []).2.1)
      (joinData buf ++ pending.data) ∧
    (∃ extra, (flush buf pending []).2.1 = buf ++ extra ∧
      ∀ c ∈ extra, c.data.Sorted (· ≤ ·)) := by
  by_cases hp : pending.data.isEmpty
  · have hdata : pending.data = [] := by
      cases h : pending.data with
      | nil => rfl
      | cons a t => rw [h] at hp; simp at hp
    unfold flush
    rw [if_pos hp]
    exact ⟨rfl, by simp [hdata], ⟨[], by simp, by simp⟩⟩
  · unfold flush
    rw [if_neg hp]
    dsimp only [add_bucket, alloc]
    refine ⟨rfl, ?_,
      ⟨[Bucket.new pending], rfl, by simpa using sortAsc_sorted pending.data⟩⟩
    rw [joinData_append, joinData_cons, joinData_nil]
    have h3 : (Bucket.new pending).data = sortAsc pending.data := rfl
    simp only [h3, List.append_nil]
    exact (sortAsc_perm pending.data).append_left (joinData buf)

theorem insertAndDrain_spec (bsize thr : Nat) (hb : 0 < bsize)
    (chunks : List (List α)) :
    (insertAndDrain bsize thr chunks).Sorted (· ≥ ·) ∧
    List.Perm (insertAndDrain bsize thr chunks) chunks.flatten := by
  obtain ⟨hperm, ⟨extra, hbe, hse⟩⟩ :=
    insertChunksFrom_spec bsize hb chunks [] RVec.empty
  obtain ⟨hfl1, hflperm, ⟨e2, hfe, hfs⟩⟩ :=
    flush_nil_sched (insertChunksFrom bsize ([], RVec.empty) chunks).1
      (insertChunksFrom bsize ([], RVec.empty) chunks).2
  have hsorted_fl : ∀ c ∈ (flush (insertChunksFrom bsize ([], RVec.empty) chunks).1
      (insertChunksFrom bsize ([], RVec.empty) chunks).2 []).2.1,
      c.data.Sorted (· ≤ ·) := by
    intro c hc
    rw [hfe] at hc
    rcases List.mem_append.mp hc with h | h
    · rw [hbe] at h
      exact hse c (by simpa using h)
    · exact hfs c h
  obtain ⟨hds, hdp⟩ := drain_spec thr hsorted_fl
  have hmain : List.Perm
      (joinData (flush (insertChunksFrom bsize ([], RVec.empty) chunks).1
        (insertChunksFrom bsize ([], RVec.empty) chunks).2 []).2.1)
      chunks.flatten := by
    refine hflperm.trans ?_
    refine hperm.trans ?_
    simp [joinData_nil, RVec.empty]
  exact ⟨hds, hdp.trans hmain⟩

theorem insertReversedAndDrain_spec (bsize thr : Nat) (hb : 0 < bsize)
    (chunks : List (List α)) :
    (insertReversedAndDrain bsize thr chunks).Sorted (· ≤ ·) ∧
    List.Perm (insertReversedAndDrain bsize thr chunks) chunks.flatten := by
  have h := insertAndDrain_spec (α := Reverse α) bsize thr hb
    (chunks.map (fun c => c.map OrderDual.toDual))
  have hdef : insertReversedAndDrain bsize thr chunks
      = (insertAndDrain bsize thr
          (chunks.map (fun c => c.map OrderDual.toDual))).map OrderDual.ofDual :=
    rfl
  rw [hdef]
  constructor
  · exact List.pairwise_map.mpr (h.1.imp (fun hab => hab))
  · refine (h.2.map OrderDual.ofDual).trans ?_
    have hmm : ∀ l : List (List α),
        List.map OrderDual.ofDual
          ((l.map (fun c => c.map OrderDual.toDual)).flatten) = l.flatten := by
      intro l
      induction l with
      | nil => rfl
      | cons c cs ihl =>
        simp only [List.map_cons, List.flatten_cons, List.map_append, ihl,
          List.map_map]
        congr 1
        simp [Function.comp_def]
    rw [hmm]


theorem commitStep_empty_bucket (buf : List (RVec α)) :
    commitStep buf (Bucket.new (⟨[], 0⟩ : RVec α)) [] =
      (true, buf, RVec.empty, []) := by
  unfold commitStep
  rw [if_neg (by simp [Bucket.len, Bucket.new, RVec.shrink_to_fit, sortAsc,
    List.insertionSort])]

theorem insertItems_fresh_unfold (b : Nat) (items : List α) :
    insertItems b [] RVec.empty items []
      = insertLoop b (items.length + 1) [] ⟨items.take b, b⟩ (items.drop b) [] := by
  have h0 : insertItems b [] RVec.empty items []
      = insertLoop b (items.length + 2) [] ⟨[], 0⟩ items [] := by
    unfold insertItems
    simp [RVec.empty, RVec.shrink_to, RVec.extend]
  rw [h0, insertLoop]
  rw [if_neg (by simp)]
  rw [commitStep_empty_bucket]
  rfl

theorem insertItems_small_fresh (b : Nat) (items : List α)
    (hk : items.length < b) :
    insertItems b [] RVec.empty items [] = ⟨true, [], ⟨items, b⟩, [], []⟩ := by
  have htake : items.take b = items := List.take_of_length_le (le_of_lt hk)
  have hdrop : items.drop b = [] := List.drop_eq_nil_of_le (le_of_lt hk)
  rw [insertItems_fresh_unfold, insertLoop]
  rw [if_pos (by simp only [List.length_take]; omega)]
  rw [htake, hdrop]

theorem commitStep_full_bucket (buf : List (RVec α)) (b : Nat) (hb : 0 < b)
    (pd : List α) (hpd : pd.length = b) :
    commitStep buf (Bucket.new (⟨pd, b⟩ : RVec α)) []
      = (true, buf ++ [Bucket.new ⟨pd, b⟩], RVec.empty, []) := by
  unfold commitStep
  rw [if_pos (by simp [Bucket.len, Bucket.new, RVec.shrink_to_fit,
    sortAsc_length, hpd, hb])]
  rfl

theorem insertLoop_full (b : Nat) (hb : 0 < b) :
    ∀ (m : Nat) (buf : List (RVec α)) (pd rem : List α) (fuel : Nat),
      pd.length = b → rem.length = m * b → rem.length + 2 ≤ fuel →
      ∃ extra, insertLoop b fuel buf ⟨pd, b⟩ rem []
          = ⟨true, buf ++ extra, ⟨[], b⟩, [], []⟩ ∧
        extra.length = m + 1 ∧ ∀ c ∈ extra, c.data.length = b := by
  intro m
  induction m with
  | zero =>
    intro buf pd rem fuel hpd hrem hfuel
    have hrnil : rem = [] := List.length_eq_zero.mp (by omega)
    subst hrnil
    obtain ⟨f, rfl⟩ : ∃ f, fuel = f + 1 := ⟨fuel - 1, by omega⟩
    rw [insertLoop]
    rw [if_neg (by simp [hpd])]
    rw [commitStep_full_bucket buf b hb pd hpd]
    show (∃ extra,
      insertLoop b f (buf ++ [Bucket.new ⟨pd, b⟩])
          ⟨List.take b [], b⟩ (List.drop b []) [] = _ ∧ _)
    simp only [List.take_nil, List.drop_nil]
    obtain ⟨f2, rfl⟩ : ∃ f2, f = f2 + 1 := ⟨f - 1, by omega⟩
    rw [insertLoop]
    rw [if_pos (by simpa using hb)]
    refine ⟨[Bucket.new ⟨pd, b⟩], rfl, rfl, ?_⟩
    intro c hc
    rcases List.mem_cons.mp hc with rfl | hc2
    · simp [Bucket.new, RVec.shrink_to_fit, sortAsc_length, hpd]
    · cases hc2
  | succ m ih =>
    intro buf pd rem fuel hpd hrem hfuel
    obtain ⟨f, rfl⟩ : ∃ f, fuel = f + 1 := ⟨fuel - 1, by omega⟩
    have hsm : (m+1)*b = m*b + b := Nat.succ_mul m b
    have hble : b ≤ rem.length := by omega
    have htl : (rem.take b).length = b := by
      rw [List.length_take]; omega
    have hdl : (rem.drop b).length = m * b := by
      rw [List.length_drop]; omega
    obtain ⟨extra, heq, hlen, hall⟩ := ih (buf ++ [Bucket.new ⟨pd, b⟩])
      (rem.take b) (rem.drop b) f htl hdl (by omega)
    rw [insertLoop]
    rw [if_neg (by simp [hpd])]
    rw [commitStep_full_bucket buf b hb pd hpd]
    show (∃ extra,
      insertLoop b f (buf ++ [Bucket.new ⟨pd, b⟩])
          ⟨rem.take b, b⟩ (rem.drop b) [] = _ ∧ _)
    refine ⟨Bucket.new ⟨pd, b⟩ :: extra, ?_, by simp [hlen], ?_⟩
    · rw [heq]
      simp [List.append_assoc]
    · intro c hc
      rcases List.mem_cons.mp hc with rfl | hc2
      · simp [Bucket.new, RVec.shrink_to_fit, sortAsc_length, hpd]
      · exact hall c hc2

theorem insertItems_exact_multiple (b m : Nat) (hb : 0 < b) (hm : 1 ≤ m)
    (items : List α) (hlen : items.length = m * b) :
    ∃ extra, insertItems b [] RVec.empty items []
        = ⟨true, extra, ⟨[], b⟩, [], []⟩ ∧
      extra.length = m ∧ ∀ c ∈ extra, c.data.length = b := by
  obtain ⟨m2, rfl⟩ : ∃ m2, m = m2 + 1 := ⟨m - 1, by omega⟩
  have hsm : (m2+1)*b = m2*b + b := Nat.succ_mul m2 b
  have htl : (items.take b).length = b := by
    rw [List.length_take]; omega
  have hdl : (items.drop b).length = m2 * b := by
    rw [List.length_drop]; omega
  obtain ⟨extra, heq, hl, hall⟩ := insertLoop_full b hb m2 [] (items.take b)
    (items.drop b) (items.length + 1) htl hdl (by omega)
  rw [insertItems_fresh_unfold, heq]
  exact ⟨extra, by simp, by omega, hall⟩

/-! ### Claim theorems -/

/-- C1: For every finite multiset of items inserted via `Inserter::insert_items`,
in any order and split across any number of calls (all allocations succeeding),
the iterator obtained from the `SortBuf` yields exactly the inserted multiset in
non-increasing order; in particular inserting [10, 20, 5, 17] with default
settings (default bucket size and shrink threshold for 4-byte items) into a
fresh buffer and draining yields [20, 17, 10, 5]. -/
theorem C1_insert_then_drain_sorted (bsize thr : Nat) (hb : 0 < bsize)
    (chunks : List (List α)) :
    ((insertAndDrain bsize thr chunks).Sorted (· ≥ ·) ∧
      List.Perm (insertAndDrain bsize thr chunks) chunks.flatten) ∧
    insertAndDrain ((Inserter.new 4 : Inserter Nat)).bucket_size
      (DEFAULT_SHRINK_THRESHOLD_BYTES / 4) [[10, 20, 5, 17]] = [20, 17, 10, 5] :=
  ⟨insertAndDrain_spec bsize thr hb chunks, by decide⟩

theorem C1_witness :
    (0 < 2) ∧
    (((insertAndDrain 2 0 [[3, 1], [2]] : List Nat).Sorted (· ≥ ·) ∧
      List.Perm (insertAndDrain 2 0 [[3, 1], [2]] : List Nat)
        ([[3, 1], [2]] : List (List Nat)).flatten) ∧
    insertAndDrain ((Inserter.new 4 : Inserter Nat)).bucket_size
      (DEFAULT_SHRINK_THRESHOLD_BYTES / 4) [[10, 20, 5, 17]] = [20, 17, 10, 5]) :=
  ⟨by decide, C1_insert_then_drain_sorted 2 0 (by decide) [[3, 1], [2]]⟩

/-- C2: If `insert_items` returns an error, every item consumed from the
caller's iterator is, after the call, located in exactly one place — already
committed to the accumulator or still in the pending buffer (the error itself
carries no items in this code path) — nothing lost or duplicated; the
unconsumed items remain with the caller as a suffix of the input, enabling
lossless retry from a by-reference source. -/
theorem C2_insert_error_no_loss (bsize : Nat) (buf : List (RVec α))
    (pending : RVec α) (items : List α) (sched : List Bool) (out : InsertOut α)
    (hout : insertItems bsize buf pending items sched = out)
    (herr : out.ok = false) :
    ∃ consumed, items = consumed ++ out.remaining ∧
      List.Perm (joinData out.buf ++ out.pending.data)
        (joinData buf ++ (pending.data ++ consumed)) := by
  obtain ⟨hperm, hsuf, _, _⟩ :=
    insertItems_preserves bsize buf pending items sched out hout
  obtain ⟨consumed, hc⟩ := hsuf
  refine ⟨consumed, hc.symm, ?_⟩
  refine (List.perm_append_right_iff out.remaining).mp ?_
  have h1 : (joinData out.buf ++ out.pending.data) ++ out.remaining
      = joinData out.buf ++ (out.pending.data ++ out.remaining) := by
    rw [List.append_assoc]
  have h2 : (joinData buf ++ (pending.data ++ consumed)) ++ out.remaining
      = joinData buf ++ (pending.data ++ items) := by
    rw [← hc]
    simp [List.append_assoc]
  rw [h1, h2]
  exact hperm

theorem C2_witness :
    ∃ consumed, ([9, 8, 7, 6, 5] : List Nat) = consumed ++
        (⟨false, [], ⟨[7, 8, 9], 3⟩, [6, 5], []⟩ : InsertOut Nat).remaining ∧
      List.Perm
        (joinData (⟨false, [], ⟨[7, 8, 9], 3⟩, [6, 5], []⟩ : InsertOut Nat).buf ++
          (⟨false, [], ⟨[7, 8, 9], 3⟩, [6, 5], []⟩ : InsertOut Nat).pending.data)
        (joinData ([] : List (RVec Nat)) ++
          ((RVec.empty : RVec Nat).data ++ consumed)) :=
  C2_insert_error_no_loss 3 [] RVec.empty [9, 8, 7, 6, 5] [false, true]
    ⟨false, [], ⟨[7, 8, 9], 3⟩, [6, 5], []⟩ (by decide) (by decide)

/-- C3: With target bucket size b, a single `insert_items` of k items
(0 < k < b) from a fresh inserter commits no bucket, and teardown (drop)
commits exactly one undersized bucket of k items; inserting exactly m*b items
commits exactly m buckets of exactly b items each with nothing left for
teardown; and splitting items across calls preserves the full multiset
regardless of chunking. -/
theorem C3_bucket_size_behaviour :
    (∀ (b : Nat) (items : List α), 0 < items.length → items.length < b →
      insertItems b [] RVec.empty items [] = ⟨true, [], ⟨items, b⟩, [], []⟩ ∧
      flush [] (⟨items, b⟩ : RVec α) [] = (true, [Bucket.new ⟨items, b⟩], []) ∧
      (Bucket.new (⟨items, b⟩ : RVec α)).data.length = items.length ∧
      List.Perm (Bucket.new (⟨items, b⟩ : RVec α)).data items) ∧
    (∀ (b m : Nat) (items : List α), 0 < b → 1 ≤ m → items.length = m * b →
      ∃ extra, insertItems b [] RVec.empty items []
          = ⟨true, extra, ⟨[], b⟩, [], []⟩ ∧
        extra.length = m ∧ (∀ c ∈ extra, c.data.length = b) ∧
        List.Perm (joinData extra) items ∧
        flush extra (⟨[], b⟩ : RVec α) [] = (true, extra, [])) ∧
    (∀ (b : Nat) (chunks : List (List α)), 0 < b →
      List.Perm (joinData (runInsertChunks b chunks).1 ++
        (runInsertChunks b chunks).2.data) chunks.flatten) := by
  refine ⟨?_, ?_, ?_⟩
  · intro b items hk0 hkb
    refine ⟨insertItems_small_fresh b items hkb, ?_, sortAsc_length items,
      sortAsc_perm items⟩
    have hne : ¬((⟨items, b⟩ : RVec α).data.isEmpty = true) := by
      cases items with
      | nil => simp at hk0
      | cons a t => simp
    unfold flush
    rw [if_neg hne]
    rfl
  · intro b m items hb hm hlen
    obtain ⟨extra, heq, hl, hall⟩ := insertItems_exact_multiple b m hb hm items hlen
    have hjperm : List.Perm (joinData extra) items := by
      obtain ⟨hperm, _, _, _⟩ :=
        insertItems_preserves b [] RVec.empty items [] _ heq
      simpa [RVec.empty, joinData_nil] using hperm
    exact ⟨extra, heq, hl, hall, hjperm, rfl⟩
  · intro b chunks hb
    obtain ⟨hperm, _⟩ := insertChunksFrom_spec b hb chunks [] RVec.empty
    simpa [runInsertChunks, RVec.empty, joinData_nil] using hperm

theorem C3_witness :
    (insertItems 3 [] RVec.empty [2, 1] [] = ⟨true, [], ⟨[2, 1], 3⟩, [], []⟩ ∧
      flush [] (⟨[2, 1], 3⟩ : RVec Nat) [] = (true, [Bucket.new ⟨[2, 1], 3⟩], []) ∧
      (Bucket.new (⟨[2, 1], 3⟩ : RVec Nat)).data.length = ([2, 1] : List Nat).length ∧
      List.Perm (Bucket.new (⟨[2, 1], 3⟩ : RVec Nat)).data [2, 1]) ∧
    (∃ extra, insertItems 2 [] RVec.empty [4, 3, 2, 1] []
        = ⟨true, extra, ⟨[], 2⟩, [], []⟩ ∧
      extra.length = 2 ∧ (∀ c ∈ extra, c.data.length = 2) ∧
      List.Perm (joinData extra) [4, 3, 2, 1] ∧
      flush extra (⟨[], 2⟩ : RVec Nat) [] = (true, extra, [])) ∧
    List.Perm (joinData (runInsertChunks 2 [[1], [2, 3]]).1 ++
      (runInsertChunks 2 [[1], [2, 3]]).2.data)
      ([[1], [2, 3]] : List (List Nat)).flatten :=
  ⟨C3_bucket_size_behaviour.1 3 [2, 1] (by decide) (by decide),
   C3_bucket_size_behaviour.2.1 2 2 [4, 3, 2, 1] (by decide) (by decide) (by decide),
   C3_bucket_size_behaviour.2.2 2 [[1], [2, 3]] (by decide)⟩

/-- C4: `Bucket::new` produces a bucket whose contents are a permutation of
the input sorted ascending, whose length equals the input length, and whose
backing storage is trimmed to exactly that length. -/
theorem C4_bucket_new_sorted (v : RVec α) :
    (Bucket.new v).data.Sorted (· ≤ ·) ∧
    List.Perm (Bucket.new v).data v.data ∧
    (Bucket.new v).data.length = v.data.length ∧
    (Bucket.new v).cap = (Bucket.new v).data.length :=
  ⟨sortAsc_sorted _, sortAsc_perm _, sortAsc_length _, (sortAsc_length _).symm⟩

/-- C5: A `SortedBucket` pull source removes and returns the current maximum
of its remaining (ascending-sorted) items, returns `None` exactly when empty,
reports the exact remaining count via `size_hint`, and successive pulls are
non-increasing. -/
theorem C5_sorted_bucket_pull (v : RVec α) (hs : v.data.Sorted (· ≤ ·)) :
    ((SortedBucket.next v).1 = none ↔ v.data = []) ∧
    (∀ x, (SortedBucket.next v).1 = some x →
      x ∈ v.data ∧ (∀ y ∈ v.data, y ≤ x) ∧
      (SortedBucket.next v).2.data ++ [x] = v.data ∧
      (∀ y, (SortedBucket.next (SortedBucket.next v).2).1 = some y → y ≤ x)) ∧
    SortedBucket.size_hint v = (v.data.length, some v.data.length) := by
  refine ⟨List.getLast?_eq_none_iff, ?_, rfl⟩
  intro x hx
  have hx2 : v.data.getLast? = some x := hx
  refine ⟨getLast?_mem hx2, fun y hy => le_getLast?_of_sorted hs hy hx2,
    List.dropLast_append_getLast? x (Option.mem_def.mpr hx2), ?_⟩
  intro y hy
  have hy2 : v.data.dropLast.getLast? = some y := hy
  have hmem : y ∈ v.data :=
    (List.dropLast_sublist v.data).subset (getLast?_mem hy2)
  exact le_getLast?_of_sorted hs hmem hx2

theorem C5_witness :
    (((SortedBucket.next (⟨[1, 2], 2⟩ : RVec Nat)).1 = none ↔
      ([1, 2] : List Nat) = []) ∧
    (∀ x, (SortedBucket.next (⟨[1, 2], 2⟩ : RVec Nat)).1 = some x →
      x ∈ ([1, 2] : List Nat) ∧ (∀ y ∈ ([1, 2] : List Nat), y ≤ x) ∧
      (SortedBucket.next (⟨[1, 2], 2⟩ : RVec Nat)).2.data ++ [x] = [1, 2] ∧
      (∀ y, (SortedBucket.next
        (SortedBucket.next (⟨[1, 2], 2⟩ : RVec Nat)).2).1 = some y → y ≤ x)) ∧
    SortedBucket.size_hint (⟨[1, 2], 2⟩ : RVec Nat)
      = (([1, 2] : List Nat).length, some ([1, 2] : List Nat).length)) :=
  C5_sorted_bucket_pull ⟨[1, 2], 2⟩ (by decide)

/-- C6: The comparison of two non-empty `SortedBucket`s equals the comparison
of their current tail elements (and their equality is equality of the tails);
and the merge iterator evicts an empty top bucket from the heap rather than
comparing it further: the step on such a heap equals the step on the heap
without that bucket. -/
theorem C6_tail_comparison_and_evict :
    (∀ (a b : RVec α) (x y : α), a.data.getLast? = some x →
      b.data.getLast? = some y →
      sbCmp a b = ordCmp x y ∧ (sbEq a b ↔ x = y)) ∧
    (∀ (thr : Nat) (heap rest : List (RVec α)) (b : RVec α),
      extractMax heap = some (b, rest) → b.data = [] →
      iterNext thr heap = iterNext thr rest) := by
  constructor
  · intro a b x y hx hy
    constructor
    · unfold sbCmp ordCmp
      rw [bucketKey_of_getLast? hx, bucketKey_of_getLast? hy]
      simp only [WithBot.coe_lt_coe, WithBot.coe_inj]
    · unfold sbEq
      rw [bucketKey_of_getLast? hx, bucketKey_of_getLast? hy]
      exact WithBot.coe_inj
  · intro thr heap rest b hE hb
    exact iterNext_evict hE hb

theorem C6_witness :
    ((sbCmp (⟨[1, 4], 2⟩ : RVec Nat) ⟨[9], 1⟩ = ordCmp 4 9 ∧
      (sbEq (⟨[1, 4], 2⟩ : RVec Nat) ⟨[9], 1⟩ ↔ (4 : Nat) = 9)) ∧
    iterNext 0 [(⟨[], 3⟩ : RVec Nat), ⟨[], 0⟩] = iterNext 0 [(⟨[], 0⟩ : RVec Nat)]) :=
  ⟨(C6_tail_comparison_and_evict.1 ⟨[1, 4], 2⟩ ⟨[9], 1⟩ 4 9 (by decide) (by decide)),
   (C6_tail_comparison_and_evict.2 0 [⟨[], 3⟩, ⟨[], 0⟩] [⟨[], 0⟩] ⟨[], 3⟩
      (by decide) (by decide))⟩

/-- C7: The target bucket size derived from a byte budget is the budget
divided by the per-item size, floored at one item (for non-zero item sizes);
a fresh `Inserter` uses the default budget of 16 MiB, and reading the byte
size back returns the item-count target times the per-item size. -/
theorem C7_bucket_bytesize (itemSize bytesize : Nat) (h : 0 < itemSize) :
    size_from_bytesize itemSize bytesize = max 1 (bytesize / itemSize) ∧
    0 < size_from_bytesize itemSize bytesize ∧
    DEFAULT_BUCKET_BYTESIZE = 16 * 1024 * 1024 ∧
    (Inserter.new itemSize : Inserter α).bucket_size
      = max 1 (16 * 1024 * 1024 / itemSize) ∧
    ∀ ins : Inserter α, Inserter.bucket_bytesize ins itemSize
      = ins.bucket_size * itemSize := by
  have h1 : ∀ bs : Nat, size_from_bytesize itemSize bs = max 1 (bs / itemSize) := by
    intro bs
    unfold size_from_bytesize
    cases hq : bs / itemSize with
    | zero => simp [hq]
    | succ n => simp [hq]
  refine ⟨h1 bytesize, ?_, rfl, h1 DEFAULT_BUCKET_BYTESIZE, fun ins => rfl⟩
  rw [h1]
  omega

theorem C7_witness :
    (size_from_bytesize 8 100 = max 1 (100 / 8) ∧
    0 < size_from_bytesize 8 100 ∧
    DEFAULT_BUCKET_BYTESIZE = 16 * 1024 * 1024 ∧
    (Inserter.new 8 : Inserter Nat).bucket_size = max 1 (16 * 1024 * 1024 / 8) ∧
    ∀ ins : Inserter Nat, Inserter.bucket_bytesize ins 8 = ins.bucket_size * 8) :=
  C7_bucket_bytesize 8 100 (by decide)

/-- C8: Inserting any finite sequence of items wrapped in the reversal adapter
and draining through `unreversed` yields the same multiset of unwrapped items
in non-decreasing order; in particular inserting [10, 20, 5, 17]
reversal-wrapped with default settings and drain-and-unwrapping yields
[5, 10, 17, 20]. -/
theorem C8_reversed_round_trip (bsize thr : Nat) (hb : 0 < bsize)
    (chunks : List (List α)) :
    ((insertReversedAndDrain bsize thr chunks).Sorted (· ≤ ·) ∧
      List.Perm (insertReversedAndDrain bsize thr chunks) chunks.flatten) ∧
    (insertReversedAndDrain
      ((Inserter.new 4 : Inserter (Reverse Nat))).bucket_size
      (DEFAULT_SHRINK_THRESHOLD_BYTES / 4) [[10, 20, 5, 17]] : List Nat)
      = [5, 10, 17, 20] :=
  ⟨insertReversedAndDrain_spec bsize thr hb chunks, by decide⟩

theorem C8_witness :
    (0 < 2) ∧
    (((insertReversedAndDrain 2 0 [[3, 1], [2]] : List Nat).Sorted (· ≤ ·) ∧
      List.Perm (insertReversedAndDrain 2 0 [[3, 1], [2]] : List Nat)
        ([[3, 1], [2]] : List (List Nat)).flatten) ∧
    (insertReversedAndDrain
      ((Inserter.new 4 : Inserter (Reverse Nat))).bucket_size
      (DEFAULT_SHRINK_THRESHOLD_BYTES / 4) [[10, 20, 5, 17]] : List Nat)
      = [5, 10, 17, 20]) :=
  ⟨by decide, C8_reversed_round_trip 2 0 (by decide) [[3, 1], [2]]⟩

/-- C9: Constructing a `Bucket` from an already ascending-sorted sequence
yields a bucket holding an identical sequence (idempotent sort). -/
theorem C9_sort_idempotent (v : RVec α) (h : v.data.Sorted (· ≤ ·)) :
    (Bucket.new v).data = v.data :=
  List.eq_of_perm_of_sorted (sortAsc_perm v.data) (sortAsc_sorted v.data) h

theorem C9_witness :
    (Bucket.new (⟨[1, 2, 2, 5], 7⟩ : RVec Nat)).data = [1, 2, 2, 5] :=
  C9_sort_idempotent ⟨[1, 2, 2, 5], 7⟩ (by decide)

/-- C10: The ordering on `SortedBucket`s is total and defined for empty
buckets: an empty bucket compares strictly less than every non-empty bucket
and equal to every other empty bucket, the comparison is antisymmetric under
swapping, and equality of the comparison agrees with `PartialEq`. -/
theorem C10_empty_bucket_order (a b e e2 : RVec α) :
    (e.data = [] → b.data ≠ [] → sbCmp e b = Ordering.lt) ∧
    (e.data = [] → e2.data = [] → sbCmp e e2 = Ordering.eq) ∧
    sbCmp b a = (sbCmp a b).swap ∧
    (sbCmp a b = Ordering.eq ↔ sbEq a b) := by
  refine ⟨?_, ?_, ?_, ?_⟩
  · intro he hbne
    obtain ⟨y, hy⟩ : ∃ y, b.data.getLast? = some y :=
      ⟨b.data.getLast hbne, List.getLast?_eq_getLast_of_ne_nil hbne⟩
    unfold sbCmp ordCmp
    rw [bucketKey_of_nil he, bucketKey_of_getLast? hy,
      if_pos (WithBot.bot_lt_coe y)]
  · intro he he2
    unfold sbCmp ordCmp
    rw [bucketKey_of_nil he, bucketKey_of_nil he2]
    simp
  · rcases lt_trichotomy (bucketKey a) (bucketKey b) with h | h | h
    · unfold sbCmp ordCmp
      rw [if_pos h, if_neg h.asymm, if_neg h.ne']
      rfl
    · unfold sbCmp ordCmp
      rw [if_neg (show ¬bucketKey b < bucketKey a by rw [h]; exact lt_irrefl _),
        if_pos h.symm,
        if_neg (show ¬bucketKey a < bucketKey b by rw [h]; exact lt_irrefl _),
        if_pos h]
      rfl
    · unfold sbCmp ordCmp
      rw [if_pos h, if_neg h.asymm, if_neg h.ne']
      rfl
  · constructor
    · intro hcmp
      rcases lt_trichotomy (bucketKey a) (bucketKey b) with h | h | h
      · unfold sbCmp ordCmp at hcmp
        rw [if_pos h] at hcmp
        simp at hcmp
      · exact h
      · unfold sbCmp ordCmp at hcmp
        rw [if_neg h.asymm, if_neg h.ne'] at hcmp
        simp at hcmp
    · intro heq
      have heq2 : bucketKey a = bucketKey b := heq
      unfold sbCmp ordCmp
      rw [if_neg (show ¬bucketKey a < bucketKey b by rw [heq2]; exact lt_irrefl _),
        if_pos heq2]

theorem C10_witness :
    sbCmp (⟨[], 0⟩ : RVec Nat) ⟨[3], 1⟩ = Ordering.lt ∧
    sbCmp (⟨[], 0⟩ : RVec Nat) ⟨[], 7⟩ = Ordering.eq ∧
    sbCmp (⟨[2], 1⟩ : RVec Nat) ⟨[5], 1⟩ = (sbCmp ⟨[5], 1⟩ ⟨[2], 1⟩).swap ∧
    (sbCmp (⟨[4], 1⟩ : RVec Nat) ⟨[4], 2⟩ = Ordering.eq ↔
      sbEq (⟨[4], 1⟩ : RVec Nat) ⟨[4], 2⟩) :=
  ⟨(C10_empty_bucket_order ⟨[9], 1⟩ ⟨[3], 1⟩ ⟨[], 0⟩ ⟨[], 7⟩).1 rfl (by decide),
   (C10_empty_bucket_order ⟨[9], 1⟩ ⟨[3], 1⟩ ⟨[], 0⟩ ⟨[], 7⟩).2.1 rfl rfl,
   (C10_empty_bucket_order ⟨[5], 1⟩ ⟨[2], 1⟩ ⟨[], 0⟩ ⟨[], 7⟩).2.2.1,
   (C10_empty_bucket_order ⟨[4], 1⟩ ⟨[4], 2⟩ ⟨[], 0⟩ ⟨[], 7⟩).2.2.2⟩

end Sortbuf
